import Mathlib

/-!
# Verification of the BitShares toolkit client coordinator

A shallow embedding of `src/libraries/client/client.cpp` (the
`bts::client` coordinator): the mempool, the inbound handlers
`on_new_block` / `on_new_transaction`, the p2p item server
(`has_item`, `get_item`, `get_item_ids`), the transport seam
(`broadcast_transaction`) and one iteration of the trustee
block-production loop.

Machine integers are modelled as `Nat` with explicit `% 2^32` where the
source relies on `uint32_t` wraparound (`get_item_ids`).  External
collaborators that live outside the translated file are handled in two
ways: the chain-database *lookup* interface (`head_block_num`,
`fetch_block_num`, `fetch_block`, `fetch_trx_block`) is given a concrete
model following the specification of its interface, while the *fallible,
state-changing* collaborators (`push_block`, `evaluate_transaction`,
block production, transport sends) are universally-quantified function
parameters, so the theorems hold for every possible behaviour of those
collaborators.  Thrown `fc::exception`s are modelled as error values
(`Err`); a function that lets an exception escape returns `Except` or
pairs its state with an `Option Err`.
-/

set_option autoImplicit false

namespace BtsClient

/-- 2^32, the modulus of `uint32_t` arithmetic. -/
def U32_MOD : Nat := 4294967296

/-- UINT32_MAX, the value of `(uint32_t)-1` in the source. -/
def U32_MAX : Nat := 4294967295

/-- A signed transaction: `signed_transaction` carries a deterministic
`id()` (a fixed-width hash, modelled as `Nat`) and its payload
(abstracted to a `Nat`). -/
structure SignedTransaction where
  id : Nat
  payload : Nat
  deriving DecidableEq, Repr

/-- A transaction block: `trx_block` carries a height, a deterministic
`id()`, the contained transactions, a timestamp and the trustee
signature.  The hash `id` is modelled as an opaque `Nat`; the zero value
is the zero hash ("before genesis / none"). -/
structure TrxBlock where
  block_num : Nat
  id : Nat
  trxs : List SignedTransaction
  timestamp : Int
  trustee_signature : Nat
  deriving DecidableEq, Repr

/-- The chain database, modelled by its contents: `blocks[n]` is the
block of height `n`.  A contiguous chain stores blocks `0 .. length-1`. -/
structure ChainDB where
  blocks : List TrxBlock
  deriving DecidableEq, Repr

/-- Message-type tags.  The source dispatches on
`bts::client::trx_message_type` / `block_message_type`; the numeric
values are opaque, only their distinctness matters. -/
def trx_message_type : Nat := 1

/-- Message-type tag of block messages. -/
def block_message_type : Nat := 2

/-- `bts::net::item_id`: a pair of an item type tag and an item hash.
The item type is a `uint32_t`, so values other than the two known tags
are representable. -/
structure item_id where
  item_type : Nat
  item_hash : Nat
  deriving DecidableEq, Repr

/-- `bts::net::message`, restricted to the two message kinds the client
constructs: a `block_message` (block id, block, trustee signature) and a
`trx_message`. -/
inductive Message where
  | blockMsg (block_id : Nat) (block : TrxBlock) (signature : Nat)
  | trxMsg (trx : SignedTransaction)
  deriving DecidableEq, Repr

/-- The `fc::exception` kinds the translated code can raise or observe:
`notFound` is `fc::key_not_found_exception`, `preconditionFailed` is the
`FC_ASSERT` guarding `get_item_ids`, `assertionFailed` covers the other
assertions, and the remaining constructors stand for exceptions thrown
by the external chain database. -/
inductive Err where
  | notFound
  | preconditionFailed
  | assertionFailed
  | invalidTransaction
  | invalidBlock
  deriving DecidableEq, Repr

/-- The transport mode, fixed at construction: the source holds either a
`chain_client` (client/server) or a p2p `node`, never both. -/
inductive Mode where
  | clientServer
  | peer
  deriving DecidableEq, Repr

/-- The mempool representation: `_pending_trxs` is an
`unordered_map<transaction_id_type, signed_transaction>`, modelled as an
association list with unique keys (every state built by `mp_insert` has
unique keys). -/
abbrev Mempool := List (Nat × SignedTransaction)

/-- Map lookup in `_pending_trxs` (`find`). -/
def mp_lookup : Mempool → Nat → Option SignedTransaction
  | [], _ => none
  | p :: rest, i => if p.1 = i then some p.2 else mp_lookup rest i

/-- Map insertion in `_pending_trxs` (`insert`): inserts only when the
key is absent; the boolean is `insert(...).second` (`true` = Added,
`false` = Duplicate). -/
def mp_insert (mp : Mempool) (i : Nat) (t : SignedTransaction) :
    Mempool × Bool :=
  if (mp_lookup mp i).isSome then (mp, false) else ((i, t) :: mp, true)

/-- Map erasure in `_pending_trxs` (`erase`): removes every entry with
the given key (at most one exists in any reachable state). -/
def mp_erase : Mempool → Nat → Mempool
  | [], _ => []
  | p :: rest, i => if p.1 = i then mp_erase rest i else p :: mp_erase rest i

/-- The mutable state of `client_impl` that the verified operations
touch: the bound chain database and the pending-transaction mempool. -/
structure State where
  chain : ChainDB
  mempool : Mempool
  deriving DecidableEq, Repr

/-- The client facade: the transport mode plus the shared state. -/
structure Client where
  mode : Mode
  state : State
  deriving DecidableEq, Repr

/-! ## Chain-database lookup interface

Modelled from the spec: the chain database is an external collaborator
(its implementation is not part of the translated file); the
specification fixes its interface as `head_block_num() → u32` (empty
chain ⇒ `UINT32_MAX`), `fetch_block_num(hash) → u32` (NotFound on
miss), `fetch_block(num) → header` and `fetch_trx_block(num) →
TrxBlock`. -/

/-- Modelled from the spec: `head_block_num()` returns the height of the
head block as a `uint32_t`, and `UINT32_MAX` on an empty chain — i.e.
the block count minus one in `uint32_t` arithmetic. -/
def head_block_num (db : ChainDB) : Nat :=
  (db.blocks.length + U32_MAX) % U32_MOD

/-- Index of the first block in a list whose `id` is the given hash. -/
def find_num : List TrxBlock → Nat → Option Nat
  | [], _ => none
  | b :: rest, h => if b.id = h then some 0 else (find_num rest h).map (· + 1)

/-- Modelled from the spec: `fetch_block_num(hash)` resolves a block
hash to its height, raising `key_not_found` on a miss.  On a well-formed
chain block ids are unique, so the first index with that id is the
height. -/
def fetch_block_num (db : ChainDB) (h : Nat) : Option Nat :=
  find_num db.blocks h

/-- Modelled from the spec: `fetch_block(num)` returns the block header
at the given height (`key_not_found` past the head).  Headers are
represented by the block record itself; `header.id()` is its `id`
field. -/
def fetch_block (db : ChainDB) (n : Nat) : Option TrxBlock :=
  db.blocks[n]?

/-- Modelled from the spec: `fetch_trx_block(num)` returns the full
transaction block at the given height. -/
def fetch_trx_block (db : ChainDB) (n : Nat) : Option TrxBlock :=
  db.blocks[n]?

/-! ## The translated client operations -/

/-- `client_impl::get_pending_transactions`: copies the mempool values
into a vector. -/
def get_pending_transactions (st : State) : List SignedTransaction :=
  st.mempool.map (fun p => p.2)

/-- `client_impl::on_new_block`: pushes the block onto the chain; on
failure the exception is logged and re-raised and nothing else happens;
on success every transaction of the block is erased from the mempool
(then the wallet rescans, which touches neither chain nor mempool).
`push_block` is the external chain-database mutation, a parameter:
`.error e` models a thrown exception `e`, `.ok db` the updated chain. -/
def on_new_block (push_block : ChainDB → TrxBlock → Except Err ChainDB)
    (st : State) (b : TrxBlock) : State × Option Err :=
  match push_block st.chain b with
  | .error e => (st, some e)
  | .ok chain2 =>
      ({ chain := chain2
         mempool := b.trxs.foldl (fun mp t => mp_erase mp t.id) st.mempool },
       none)

/-- `client_impl::on_new_transaction`: evaluates the transaction against
the chain (the external `evaluate_transaction`, a parameter returning
`some e` when it throws `e` and `none` when the transaction is valid;
it is read-only on the chain), propagating a failure untouched; on
success inserts into the mempool, merely logging whether the insertion
was an Added or a Duplicate. -/
def on_new_transaction
    (evaluate_transaction : ChainDB → SignedTransaction → Option Err)
    (st : State) (t : SignedTransaction) : State × Option Err :=
  match evaluate_transaction st.chain t with
  | some e => (st, some e)
  | none => ({ st with mempool := (mp_insert st.mempool t.id t).1 }, none)

/-- `client_impl::has_item`: unconditionally `false`. -/
def has_item (_ : item_id) : Bool :=
  false

/-- `client_impl::get_item`.  For a `BLOCK` item: resolve the hash to a
height (an uncaught `key_not_found` on a miss), fetch the full block,
assert the id round-trips, and return a `block_message`.  For a `TRX`
item the source populates a local `trx_message_to_send` from the mempool
but never returns it: control falls through to the unconditional
`FC_THROW_EXCEPTION(key_not_found_exception, ...)` at the end, as it
does for any unknown item type. -/
def get_item (st : State) (id : item_id) : Except Err Message :=
  if id.item_type = block_message_type then
    match fetch_block_num st.chain id.item_hash with
    | none => .error .notFound
    | some block_number =>
        match fetch_trx_block st.chain block_number with
        | none => .error .notFound
        | some blk =>
            if id.item_hash = blk.id then
              .ok (.blockMsg blk.id blk blk.trustee_signature)
            else
              .error .assertionFailed
  else if id.item_type = trx_message_type then
    -- the source builds this message but falls through without returning it
    let _trx_message_to_send := mp_lookup st.mempool id.item_hash
    .error .notFound
  else
    .error .notFound

/-- The body of the `get_item_ids` fetch loop: `items` times, increment
`last_seen_block_num` (a `uint32_t`, hence mod `2^32`), fetch the block
header at that height and record its id.  A fetch miss hits the
`assert(false && "I assume this can never happen")`, modelled as
`none`. -/
def fetch_loop (db : ChainDB) (last_seen : Nat) : Nat → Option (List Nat)
  | 0 => some []
  | Nat.succ c =>
      let next := (last_seen + 1) % U32_MOD
      match fetch_block db next with
      | none => none
      | some b =>
          match fetch_loop db next c with
          | none => none
          | some rest => some (b.id :: rest)

/-- The tail of `client_impl::get_item_ids` once `last_seen_block_num`
is known: `remaining = head_block_num - last_seen` in `uint32_t`
arithmetic, serve `min limit remaining` ids via the fetch loop, and
return the ids together with the updated `remaining`. -/
def serve_ids (db : ChainDB) (last_seen limit : Nat) :
    Except Err (List Nat × Nat) :=
  let remaining := (head_block_num db + U32_MOD - last_seen) % U32_MOD
  let items := min limit remaining
  match fetch_loop db last_seen items with
  | none => .error .assertionFailed
  | some hashes_to_return => .ok (hashes_to_return, remaining - items)

/-- `client_impl::get_item_ids`: `FC_ASSERT` that the item type is
`BLOCK` (modelled as the spec's PreconditionFailed); resolve the from-
hash to `last_seen_block_num`, treating the zero hash as `(uint32_t)-1`
and any other unknown hash as "fork we cannot serve" (`(empty, 0)`);
then serve the next ids. -/
def get_item_ids (db : ChainDB) (from_id : item_id) (limit : Nat) :
    Except Err (List Nat × Nat) :=
  if from_id.item_type = block_message_type then
    match fetch_block_num db from_id.item_hash with
    | some n => serve_ids db n limit
    | none =>
        if from_id.item_hash = 0 then
          serve_ids db U32_MAX limit
        else
          .ok ([], 0)
  else
    .error .preconditionFailed

/-- `client::broadcast_transaction`: in client/server mode, forward to
the server (which will echo) and leave the local state alone; in peer
mode, broadcast on the p2p node — which never echoes to the sender —
and *then* self-apply via `on_new_transaction`.  The middle component
lists the transport sends issued, in order; note that in peer mode the
send precedes (and survives) a failing self-apply. -/
def broadcast_transaction
    (evaluate_transaction : ChainDB → SignedTransaction → Option Err)
    (c : Client) (t : SignedTransaction) :
    Client × List Message × Option Err :=
  match c.mode with
  | .clientServer => (c, [.trxMsg t], none)
  | .peer =>
      let r := on_new_transaction evaluate_transaction c.state t
      ({ c with state := r.1 }, [.trxMsg t], r.2)

/-- The result of one trustee-loop iteration: the state afterwards, the
`_last_block` timestamp afterwards, and the block broadcast during the
iteration, if any. -/
structure TrusteeResult where
  state : State
  last_block : Int
  produced : Option TrxBlock
  deriving DecidableEq, Repr

/-- One iteration of `client_impl::trustee_loop` (times in seconds,
`now - last_block > 30` is the production gate).  `produce` models
`wallet->generate_next_block` followed by `blk.sign(_trustee_key)`
(`.error` = a thrown exception), `bcast` the transport send
(`broadcast_block` / p2p `broadcast`; `some e` = a thrown exception) and
`push_block` the chain mutation used by the peer-mode self-apply.  Any
exception inside the `try` is caught and logged, the loop continues and
`_last_block` is not updated; on success `_last_block := now`. -/
def trustee_iteration (mode : Mode)
    (produce : ChainDB → List SignedTransaction → Except Err TrxBlock)
    (bcast : TrxBlock → Option Err)
    (push_block : ChainDB → TrxBlock → Except Err ChainDB)
    (now last_block : Int) (st : State) : TrusteeResult :=
  let pending_trxs := get_pending_transactions st
  if pending_trxs ≠ [] ∧ now - last_block > 30 then
    match produce st.chain pending_trxs with
    | .error _ => ⟨st, last_block, none⟩
    | .ok blk =>
        match bcast blk with
        | some _ => ⟨st, last_block, none⟩
        | none =>
            match mode with
            | .clientServer => ⟨st, now, some blk⟩
            | .peer =>
                -- p2p does not echo, so self-apply; a failure there is
                -- caught by the same catch and leaves _last_block alone
                let r := on_new_block push_block st blk
                match r.2 with
                | some _ => ⟨r.1, last_block, some blk⟩
                | none => ⟨r.1, now, some blk⟩
  else
    ⟨st, last_block, none⟩

/-- Iterated trustee-loop ticks over a list of observation times: the
coordinator lifetime view of `_last_block`. -/
def trustee_run (mode : Mode)
    (produce : ChainDB → List SignedTransaction → Except Err TrxBlock)
    (bcast : TrxBlock → Option Err)
    (push_block : ChainDB → TrxBlock → Except Err ChainDB) :
    List Int → Int → State → Int × State
  | [], last_block, st => (last_block, st)
  | now :: rest, last_block, st =>
      let r := trustee_iteration mode produce bcast push_block now last_block st
      trustee_run mode produce bcast push_block rest r.last_block r.state

/-! ## Concrete fixtures

Small closed values used to evaluate the theorems on concrete inputs. -/

/-- A sample transaction with id 5. -/
def t5 : SignedTransaction := ⟨5, 50⟩

/-- A sample transaction with id 7. -/
def t7 : SignedTransaction := ⟨7, 70⟩

/-- A four-block contiguous chain with block ids 10, 11, 12, 13. -/
def db4 : ChainDB :=
  ⟨[⟨0, 10, [], 0, 0⟩, ⟨1, 11, [], 0, 0⟩, ⟨2, 12, [], 0, 0⟩, ⟨3, 13, [], 0, 0⟩]⟩

/-- A state over `db4` whose mempool holds `t5`. -/
def st0 : State := ⟨db4, [(5, t5)]⟩

/-- A candidate next block containing `t5`. -/
def b0 : TrxBlock := ⟨4, 14, [t5], 35, 0⟩

/-- A `push_block` behaviour that appends the block. -/
def pushOk : ChainDB → TrxBlock → Except Err ChainDB :=
  fun db blk => .ok ⟨db.blocks ++ [blk]⟩

/-- A `push_block` behaviour that always throws. -/
def pushFail : ChainDB → TrxBlock → Except Err ChainDB :=
  fun _ _ => .error .invalidBlock

/-- An `evaluate_transaction` behaviour that accepts everything. -/
def evOk : ChainDB → SignedTransaction → Option Err :=
  fun _ _ => none

/-- An `evaluate_transaction` behaviour that always throws. -/
def evFail : ChainDB → SignedTransaction → Option Err :=
  fun _ _ => some .invalidTransaction

/-- A block-production behaviour that always yields `b0`. -/
def produceW : ChainDB → List SignedTransaction → Except Err TrxBlock :=
  fun _ _ => .ok b0

/-- A transport-send behaviour that always succeeds. -/
def bcastW : TrxBlock → Option Err :=
  fun _ => none

/-- A peer-mode client over `db4` with an empty mempool. -/
def cpeer : Client := ⟨.peer, ⟨db4, []⟩⟩

/-- A client/server-mode client over `db4` with an empty mempool. -/
def ccs : Client := ⟨.clientServer, ⟨db4, []⟩⟩

/-! ## Mempool lemmas -/

/-- Erasing a key removes every entry with that key. -/
theorem mp_lookup_erase_self (mp : Mempool) (i : Nat) :
    mp_lookup (mp_erase mp i) i = none := by
  induction mp with
  | nil => rfl
  | cons p rest ih =>
      by_cases h : p.1 = i
      · simpa [mp_erase, h] using ih
      · simp [mp_erase, mp_lookup, h, ih]

/-- Erasure never adds an entry: a key absent before an erase is absent
after it. -/
theorem mp_lookup_erase_none (mp : Mempool) (i j : Nat)
    (h : mp_lookup mp i = none) : mp_lookup (mp_erase mp j) i = none := by
  induction mp with
  | nil => rfl
  | cons p rest ih =>
      by_cases hp : p.1 = i
      · simp [mp_lookup, hp] at h
      · simp only [mp_lookup, hp, if_false] at h
        by_cases hj : p.1 = j
        · simpa [mp_erase, hj] using ih h
        · simp [mp_erase, mp_lookup, hj, hp, ih h]

/-- A key absent from the mempool stays absent under any sequence of
erasures. -/
theorem mp_lookup_foldl_erase_none (l : List SignedTransaction) :
    ∀ (mp : Mempool) (i : Nat), mp_lookup mp i = none →
      mp_lookup (l.foldl (fun mp t => mp_erase mp t.id) mp) i = none := by
  induction l with
  | nil => intro mp i h; simpa using h
  | cons t rest ih =>
      intro mp i h
      simpa using ih (mp_erase mp t.id) i (mp_lookup_erase_none mp i t.id h)

/-- After erasing the ids of every transaction of a list, none of those
ids remains in the mempool. -/
theorem mp_lookup_eraseAll (l : List SignedTransaction) :
    ∀ (mp : Mempool) (t : SignedTransaction), t ∈ l →
      mp_lookup (l.foldl (fun mp t => mp_erase mp t.id) mp) t.id = none := by
  induction l with
  | nil => intro mp t h; cases h
  | cons a rest ih =>
      intro mp t h
      rcases List.mem_cons.mp h with rfl | hmem
      · by_cases hr : t ∈ rest
        · simpa using ih (mp_erase mp t.id) t hr
        · simpa using
            mp_lookup_foldl_erase_none rest (mp_erase mp t.id) t.id
              (mp_lookup_erase_self mp t.id)
      · simpa using ih (mp_erase mp a.id) t hmem

/-! ## Chain-lookup lemmas -/

/-- A hash carried by no block resolves to no height. -/
theorem find_num_eq_none (l : List TrxBlock) (h : Nat)
    (hh : ∀ b ∈ l, b.id ≠ h) : find_num l h = none := by
  induction l with
  | nil => rfl
  | cons b rest ih =>
      simp [find_num, hh b (List.mem_cons_self b rest),
        ih (fun x hx => hh x (List.mem_cons_of_mem b hx))]

/-- On a chain with pairwise-distinct block ids, the id of the block at
height `k` resolves back to `k`. -/
theorem find_num_getElem (l : List TrxBlock)
    (hnodup : (l.map (fun b => b.id)).Nodup) :
    ∀ (k : Nat) (hk : k < l.length), find_num l l[k].id = some k := by
  induction l with
  | nil => intro k hk; simp at hk
  | cons b rest ih =>
      rw [List.map_cons, List.nodup_cons] at hnodup
      obtain ⟨hb, hrest⟩ := hnodup
      intro k hk
      match k with
      | 0 => simp [find_num]
      | Nat.succ k2 =>
          have hk2 : k2 < rest.length := by simpa using hk
          have hne : ¬b.id = rest[k2].id := by
            intro he
            exact hb (he ▸ List.mem_map.mpr ⟨rest[k2], List.getElem_mem hk2, rfl⟩)
          simp [find_num, hne, ih hrest k2 hk2]

/-- The fetch loop of `get_item_ids` walks the contiguous chain: started
just before position `(s+1) % 2^32` with enough blocks ahead, it returns
exactly the ids of the next `n` blocks in ascending height order. -/
theorem fetch_loop_eq (db : ChainDB) :
    ∀ (n s : Nat), (s + 1) % U32_MOD + n ≤ db.blocks.length →
      db.blocks.length ≤ U32_MOD →
      fetch_loop db s n =
        some (((db.blocks.drop ((s + 1) % U32_MOD)).take n).map
          (fun b => b.id)) := by
  intro n
  induction n with
  | zero => intro s h1 h2; simp [fetch_loop]
  | succ c ih =>
      intro s h1 h2
      have hel : (s + 1) % U32_MOD < db.blocks.length := by omega
      have hfb : fetch_block db ((s + 1) % U32_MOD) =
          some db.blocks[(s + 1) % U32_MOD] := by
        simp [fetch_block, List.getElem?_eq_getElem hel]
      have hcase : ((s + 1) % U32_MOD + 1) % U32_MOD = (s + 1) % U32_MOD + 1
          ∨ c = 0 := by
        simp only [U32_MOD] at h1 h2 ⊢
        omega
      rw [List.drop_eq_getElem_cons hel, List.take_succ_cons, List.map_cons]
      rcases hcase with hmod | rfl
      · have h1c : ((s + 1) % U32_MOD + 1) % U32_MOD + c ≤ db.blocks.length := by
          omega
        have hloop := ih ((s + 1) % U32_MOD) h1c h2
        rw [hmod] at hloop
        simp only [fetch_loop, hfb, hloop]
      · simp only [fetch_loop, hfb, List.take_zero, List.map_nil]

/-- `serve_ids` from a known height `k`: the next `min limit (H−k)`
block ids, i.e. the `limit`-prefix of the blocks strictly above `k`,
with `remaining = H − k − limit` (truncated at zero). -/
theorem serve_ids_known (db : ChainDB) (k limit : Nat)
    (hk : k < db.blocks.length) (hlen : db.blocks.length < U32_MOD) :
    serve_ids db k limit =
      .ok (((db.blocks.drop (k + 1)).take limit).map (fun b => b.id),
           db.blocks.length - 1 - k - limit) := by
  have hrem : (head_block_num db + U32_MOD - k) % U32_MOD =
      db.blocks.length - 1 - k := by
    simp only [head_block_num, U32_MOD, U32_MAX] at *
    omega
  have hmod : (k + 1) % U32_MOD = k + 1 := by
    simp only [U32_MOD] at *
    omega
  have h1 : (k + 1) % U32_MOD + min limit (db.blocks.length - 1 - k) ≤
      db.blocks.length := by
    rw [hmod]; omega
  have hloop := fetch_loop_eq db (min limit (db.blocks.length - 1 - k)) k h1
    (by omega)
  rw [hmod] at hloop
  have htake : (db.blocks.drop (k + 1)).take
      (min limit (db.blocks.length - 1 - k)) =
        (db.blocks.drop (k + 1)).take limit := by
    rw [List.take_eq_take]
    simp only [List.length_drop]
    omega
  have hrem2 : db.blocks.length - 1 - k -
      min limit (db.blocks.length - 1 - k) =
        db.blocks.length - 1 - k - limit := by omega
  simp only [serve_ids, hrem, hloop, htake, hrem2]

/-- `serve_ids` from `UINT32_MAX` ("before genesis"): under `uint32_t`
wraparound the walk starts at block 0, returning the `limit`-prefix of
the whole chain with `remaining = (H+1) − limit` (truncated at zero);
on an empty chain the result is empty with `remaining = 0`. -/
theorem serve_ids_genesis (db : ChainDB) (limit : Nat)
    (hlen : db.blocks.length < U32_MOD) :
    serve_ids db U32_MAX limit =
      .ok ((db.blocks.take limit).map (fun b => b.id),
           db.blocks.length - limit) := by
  have hrem : (head_block_num db + U32_MOD - U32_MAX) % U32_MOD =
      db.blocks.length := by
    simp only [head_block_num, U32_MOD, U32_MAX] at *
    omega
  have hmod : (U32_MAX + 1) % U32_MOD = 0 := by
    simp only [U32_MOD, U32_MAX]
  have h1 : (U32_MAX + 1) % U32_MOD + min limit db.blocks.length ≤
      db.blocks.length := by
    rw [hmod]; omega
  have hloop := fetch_loop_eq db (min limit db.blocks.length) U32_MAX h1
    (by omega)
  rw [hmod, List.drop_zero] at hloop
  have htake : db.blocks.take (min limit db.blocks.length) =
      db.blocks.take limit := by
    rw [List.take_eq_take]
    omega
  have hrem2 : db.blocks.length - min limit db.blocks.length =
      db.blocks.length - limit := by omega
  simp only [serve_ids, hrem, hloop, htake, hrem2]

/-- `serve_ids` never raises the precondition failure: its only error is
the loop assertion. -/
theorem serve_ids_ne_precondition (db : ChainDB) (last_seen limit : Nat) :
    serve_ids db last_seen limit ≠ .error .preconditionFailed := by
  simp only [serve_ids]
  cases fetch_loop db last_seen
    (min limit ((head_block_num db + U32_MOD - last_seen) % U32_MOD)) <;> simp

/-! ## Claim theorems -/

/-- C1.  For every contiguous chain of height `H = length − 1` and every
known from-hash identifying block `k`, `get_item_ids((BLOCK, id_k),
limit)` returns exactly the ids of blocks `k+1 … min(k+limit, H)` in
ascending height order — the `limit`-prefix of the blocks strictly above
height `k` — and sets the remaining output to `max(0, H − k − limit)`
(truncated `Nat` subtraction). -/
theorem get_item_ids_known_slice (db : ChainDB) (k limit : Nat)
    (hnodup : (db.blocks.map (fun b => b.id)).Nodup)
    (hk : k < db.blocks.length) (hlen : db.blocks.length < U32_MOD) :
    get_item_ids db ⟨block_message_type, db.blocks[k].id⟩ limit =
      .ok (((db.blocks.drop (k + 1)).take limit).map (fun b => b.id),
           db.blocks.length - 1 - k - limit) := by
  simp only [get_item_ids, fetch_block_num, if_pos rfl,
    find_num_getElem db.blocks hnodup k hk]
  exact serve_ids_known db k limit hk hlen

/-- C1, witness: on the four-block chain `db4` (height 3), asking from
the block of height 1 with limit 2 yields the ids of blocks 2 and 3 with
remaining 0. -/
theorem get_item_ids_known_slice_witness :
    get_item_ids db4 ⟨block_message_type, db4.blocks[1].id⟩ 2 =
      .ok ([12, 13], 0) := by
  have h := get_item_ids_known_slice db4 1 2 (by decide) (by decide) (by decide)
  simpa using h

/-- C7.  The zero from-hash is treated as "before genesis": `last_seen`
becomes `UINT32_MAX` and under `uint32_t` wraparound the returned ids
are exactly those of blocks `0 … min(limit−1, H)` — the `limit`-prefix
of the chain — with `remaining = (H+1) − limit` truncated at zero; on
the empty chain (where `head_block_num` is `UINT32_MAX`) the result is
empty with remaining 0. -/
theorem get_item_ids_zero_hash (db : ChainDB) (limit : Nat)
    (hzero : ∀ b ∈ db.blocks, b.id ≠ 0)
    (hlen : db.blocks.length < U32_MOD) :
    get_item_ids db ⟨block_message_type, 0⟩ limit =
      .ok ((db.blocks.take limit).map (fun b => b.id),
           db.blocks.length - limit) ∧
    head_block_num ⟨[]⟩ = U32_MAX := by
  refine ⟨?_, by simp [head_block_num, U32_MAX, U32_MOD]⟩
  simp only [get_item_ids, fetch_block_num, if_pos rfl,
    find_num_eq_none db.blocks 0 hzero]
  exact serve_ids_genesis db limit hlen

/-- C7, witness: on `db4` the zero hash with limit 2 yields the ids of
blocks 0 and 1 with remaining 2, and on the empty chain it yields the
empty list with remaining 0. -/
theorem get_item_ids_zero_hash_witness :
    get_item_ids db4 ⟨block_message_type, 0⟩ 2 = .ok ([10, 11], 2) ∧
    get_item_ids ⟨[]⟩ ⟨block_message_type, 0⟩ 5 = .ok ([], 0) := by
  have h1 := get_item_ids_zero_hash db4 2 (by decide) (by decide)
  have h2 := get_item_ids_zero_hash ⟨[]⟩ 5 (by simp) (by decide)
  exact ⟨by simpa using h1.1, by simpa using h2.1⟩

/-- C8.  A non-zero from-hash unknown to the chain makes
`get_item_ids((BLOCK, hash), limit)` return the empty list with
remaining 0, without raising. -/
theorem get_item_ids_unknown_hash (db : ChainDB) (h limit : Nat)
    (hne : h ≠ 0) (hunk : ∀ b ∈ db.blocks, b.id ≠ h) :
    get_item_ids db ⟨block_message_type, h⟩ limit = .ok ([], 0) := by
  simp [get_item_ids, fetch_block_num, find_num_eq_none db.blocks h hunk, hne]

/-- C8, witness: the fabricated non-zero hash 99 is unknown to `db4`. -/
theorem get_item_ids_unknown_hash_witness :
    get_item_ids db4 ⟨block_message_type, 99⟩ 100 = .ok ([], 0) :=
  get_item_ids_unknown_hash db4 99 100 (by decide) (by decide)

/-- C9.  `get_item_ids` fails with the PreconditionFailed of its leading
`FC_ASSERT` — raised before any chain access — exactly when the item
type of `from_id` is not `BLOCK`. -/
theorem get_item_ids_type_guard (db : ChainDB) (from_id : item_id)
    (limit : Nat) :
    get_item_ids db from_id limit = .error .preconditionFailed ↔
      from_id.item_type ≠ block_message_type := by
  constructor
  · intro hres hty
    rw [get_item_ids, if_pos hty] at hres
    cases hfn : fetch_block_num db from_id.item_hash with
    | some n =>
        rw [hfn] at hres
        exact serve_ids_ne_precondition db n limit hres
    | none =>
        rw [hfn] at hres
        by_cases hz : from_id.item_hash = 0
        · rw [if_pos hz] at hres
          exact serve_ids_ne_precondition db U32_MAX limit hres
        · rw [if_neg hz] at hres
          exact Except.noConfusion hres
  · intro hty
    rw [get_item_ids, if_neg hty]

/-- C9, witness: a TRX-typed `from_id` hits the precondition failure,
a BLOCK-typed one does not. -/
theorem get_item_ids_type_guard_witness :
    get_item_ids db4 ⟨trx_message_type, 11⟩ 2 = .error .preconditionFailed ∧
    get_item_ids db4 ⟨block_message_type, 11⟩ 2 ≠ .error .preconditionFailed := by
  constructor
  · exact (get_item_ids_type_guard db4 ⟨trx_message_type, 11⟩ 2).mpr (by decide)
  · intro hres
    exact absurd ((get_item_ids_type_guard db4 ⟨block_message_type, 11⟩ 2).mp hres)
      (by simp)

/-- C2.  `on_new_block` either completes fully or leaves state
untouched: when `push_block` throws, the same error is re-raised and the
state — in particular the mempool — is unchanged; when it succeeds, the
handler reports no error, the chain holds the pushed result, and every
transaction contained in the block is gone from the mempool (erasing an
absent id is not an error), so mempool and block transactions are
disjoint afterwards. -/
theorem on_new_block_atomic
    (push_block : ChainDB → TrxBlock → Except Err ChainDB)
    (st : State) (b : TrxBlock) :
    (∀ e, push_block st.chain b = .error e →
        on_new_block push_block st b = (st, some e)) ∧
    (∀ db2, push_block st.chain b = .ok db2 →
        (on_new_block push_block st b).2 = none ∧
        (on_new_block push_block st b).1.chain = db2 ∧
        ∀ t ∈ b.trxs,
          mp_lookup (on_new_block push_block st b).1.mempool t.id = none) := by
  constructor
  · intro e he
    simp [on_new_block, he]
  · intro db2 hok
    refine ⟨by simp [on_new_block, hok], by simp [on_new_block, hok], ?_⟩
    intro t ht
    simp only [on_new_block, hok]
    exact mp_lookup_eraseAll b.trxs st.mempool t ht

/-- C2, witness: a failing push re-raises and leaves `st0` intact; a
successful push of `b0` (which contains `t5`) removes `t5`'s id from the
mempool. -/
theorem on_new_block_atomic_witness :
    on_new_block pushFail st0 b0 = (st0, some .invalidBlock) ∧
    mp_lookup (on_new_block pushOk st0 b0).1.mempool t5.id = none := by
  constructor
  · exact (on_new_block_atomic pushFail st0 b0).1 .invalidBlock rfl
  · exact ((on_new_block_atomic pushOk st0 b0).2 ⟨db4.blocks ++ [b0]⟩ rfl).2.2
      t5 (by decide)

/-- C3.  `on_new_transaction` evaluates the transaction first: a
failing evaluation propagates its error with the state untouched; a
successful one reports no error, never mutates the chain, and leaves the
transaction's id present in the mempool — freshly inserted when it was
absent, and when it was already present the second insertion is a
Duplicate (`mp_insert` returns `false`) that leaves the mempool, hence
its size, unchanged. -/
theorem on_new_transaction_spec
    (evaluate_transaction : ChainDB → SignedTransaction → Option Err)
    (st : State) (t : SignedTransaction) :
    (∀ e, evaluate_transaction st.chain t = some e →
        on_new_transaction evaluate_transaction st t = (st, some e)) ∧
    (evaluate_transaction st.chain t = none →
        (on_new_transaction evaluate_transaction st t).2 = none ∧
        (on_new_transaction evaluate_transaction st t).1.chain = st.chain ∧
        (mp_lookup (on_new_transaction evaluate_transaction st t).1.mempool
          t.id).isSome = true ∧
        (mp_lookup st.mempool t.id = none →
          (on_new_transaction evaluate_transaction st t).1.mempool =
            (t.id, t) :: st.mempool) ∧
        ((mp_lookup st.mempool t.id).isSome = true →
          mp_insert st.mempool t.id t = (st.mempool, false) ∧
          (on_new_transaction evaluate_transaction st t).1.mempool =
            st.mempool)) := by
  constructor
  · intro e he
    simp [on_new_transaction, he]
  · intro hv
    by_cases hmem : (mp_lookup st.mempool t.id).isSome = true
    · refine ⟨by simp [on_new_transaction, hv],
        by simp [on_new_transaction, hv],
        by simp [on_new_transaction, hv, mp_insert, hmem], ?_, ?_⟩
      · intro habs
        rw [habs] at hmem
        simp at hmem
      · intro _
        exact ⟨by simp [mp_insert, hmem],
          by simp [on_new_transaction, hv, mp_insert, hmem]⟩
    · have habs : mp_lookup st.mempool t.id = none := by
        cases hx : mp_lookup st.mempool t.id
        · rfl
        · rw [hx] at hmem
          simp at hmem
      refine ⟨by simp [on_new_transaction, hv],
        by simp [on_new_transaction, hv],
        by simp [on_new_transaction, hv, mp_insert, habs, mp_lookup], ?_, ?_⟩
      · intro _
        simp [on_new_transaction, hv, mp_insert, habs]
      · intro hsome
        rw [habs] at hsome
        simp at hsome

/-- C3, witness: a failing evaluation of `t7` leaves `st0` untouched; a
valid fresh `t7` ends up in front of the mempool; re-receiving `t5`
(already pending in `st0`) leaves the mempool unchanged. -/
theorem on_new_transaction_spec_witness :
    on_new_transaction evFail st0 t7 = (st0, some .invalidTransaction) ∧
    (on_new_transaction evOk st0 t7).1.mempool = (t7.id, t7) :: st0.mempool ∧
    (on_new_transaction evOk st0 t5).1.mempool = st0.mempool := by
  refine ⟨(on_new_transaction_spec evFail st0 t7).1 .invalidTransaction rfl,
    ?_, ?_⟩
  · exact ((on_new_transaction_spec evOk st0 t7).2 rfl).2.2.2.1 (by decide)
  · exact (((on_new_transaction_spec evOk st0 t5).2 rfl).2.2.2.2 (by decide)).2

/-- C4.  The echo asymmetry of `broadcast_transaction`: for a valid
transaction, in peer mode the coordinator self-applies via
`on_new_transaction`, so the transaction is in the mempool immediately
afterwards with no transport echo involved; in client/server mode the
call leaves the client untouched — the transaction is not in the
mempool after the call — and only the server's echo through
`on_new_transaction` inserts it. -/
theorem broadcast_transaction_echo
    (evaluate_transaction : ChainDB → SignedTransaction → Option Err)
    (c : Client) (t : SignedTransaction)
    (hvalid : evaluate_transaction c.state.chain t = none)
    (habsent : mp_lookup c.state.mempool t.id = none) :
    (c.mode = .peer →
        mp_lookup
          (broadcast_transaction evaluate_transaction c t).1.state.mempool
          t.id = some t) ∧
    (c.mode = .clientServer →
        (broadcast_transaction evaluate_transaction c t).1 = c ∧
        mp_lookup
          (broadcast_transaction evaluate_transaction c t).1.state.mempool
          t.id = none ∧
        mp_lookup (on_new_transaction evaluate_transaction c.state t).1.mempool
          t.id = some t) := by
  obtain ⟨mode, stc⟩ := c
  have hafter : mp_lookup
      (on_new_transaction evaluate_transaction stc t).1.mempool t.id =
        some t := by
    simp [on_new_transaction, hvalid, mp_insert, habsent, mp_lookup]
  constructor
  · rintro rfl
    simpa [broadcast_transaction] using hafter
  · rintro rfl
    exact ⟨rfl, habsent, hafter⟩

/-- C4, witness: over the empty-mempool clients `cpeer` and `ccs`, a
peer-mode broadcast of `t7` puts it in the mempool at once, while a
client/server-mode broadcast changes nothing until the echo. -/
theorem broadcast_transaction_echo_witness :
    mp_lookup (broadcast_transaction evOk cpeer t7).1.state.mempool t7.id =
      some t7 ∧
    (broadcast_transaction evOk ccs t7).1 = ccs ∧
    mp_lookup (on_new_transaction evOk ccs.state t7).1.mempool t7.id =
      some t7 := by
  refine ⟨(broadcast_transaction_echo evOk cpeer t7 rfl rfl).1 rfl, ?_, ?_⟩
  · exact ((broadcast_transaction_echo evOk ccs t7 rfl rfl).2 rfl).1
  · exact ((broadcast_transaction_echo evOk ccs t7 rfl rfl).2 rfl).2.2

/-- C10.  In peer mode the p2p gossip is issued before local
validation: when evaluation of the transaction fails, the error
propagates to the caller and the client state (hence the mempool) is
unchanged, yet the transport send of the transaction has already been
issued — an invalid transaction still reaches the network. -/
theorem broadcast_transaction_peer_invalid
    (evaluate_transaction : ChainDB → SignedTransaction → Option Err)
    (c : Client) (t : SignedTransaction) (e : Err)
    (hpeer : c.mode = .peer)
    (hinvalid : evaluate_transaction c.state.chain t = some e) :
    broadcast_transaction evaluate_transaction c t =
      (c, [.trxMsg t], some e) := by
  obtain ⟨mode, stc⟩ := c
  cases hpeer
  simp [broadcast_transaction, on_new_transaction, hinvalid]

/-- C10, witness: broadcasting the always-rejected `t7` from the
peer-mode client gossips it, changes nothing locally, and re-raises the
evaluation error. -/
theorem broadcast_transaction_peer_invalid_witness :
    broadcast_transaction evFail cpeer t7 =
      (cpeer, [.trxMsg t7], some .invalidTransaction) :=
  broadcast_transaction_peer_invalid evFail cpeer t7 .invalidTransaction
    rfl rfl

/-- C6 (code bug).  With `t5` pending in the mempool of `st0`,
`get_item((TRX, t5.id))` does not return a `trx_message`: the source
populates the message but falls through to the unconditional
`FC_THROW_EXCEPTION(key_not_found_exception, ...)`, so even a present
transaction yields NotFound — contradicting the spec, which expects the
populated `TrxMessage` back.  The absent-transaction and unknown-type
cases do fail with NotFound as specified. -/
theorem get_item_trx_notFound :
    mp_lookup st0.mempool t5.id = some t5 ∧
    get_item st0 ⟨trx_message_type, t5.id⟩ = .error .notFound ∧
    get_item ⟨db4, []⟩ ⟨trx_message_type, t5.id⟩ = .error .notFound ∧
    get_item st0 ⟨99, 5⟩ = .error .notFound := by
  refine ⟨by decide, rfl, rfl, rfl⟩

/-- `_last_block` never decreases across a single trustee-loop
iteration: it is either kept or set to `now`, and it is set to `now`
only under the 30-second gate, which forces `last_block < now`. -/
theorem trustee_iteration_mono (mode : Mode)
    (produce : ChainDB → List SignedTransaction → Except Err TrxBlock)
    (bcast : TrxBlock → Option Err)
    (push_block : ChainDB → TrxBlock → Except Err ChainDB)
    (now last_block : Int) (st : State) :
    last_block ≤
      (trustee_iteration mode produce bcast push_block
        now last_block st).last_block := by
  simp only [trustee_iteration]
  split
  · next hgate =>
      obtain ⟨-, htime⟩ := hgate
      cases hp : produce st.chain (get_pending_transactions st) with
      | error e => simp
      | ok blk =>
          cases hb : bcast blk with
          | some e => simp [hb]
          | none =>
              cases mode with
              | clientServer =>
                  simp [hb]
                  omega
              | peer =>
                  cases hn : (on_new_block push_block st blk).2 with
                  | some e => simp [hb, hn]
                  | none =>
                      simp [hb, hn]
                      omega
  · exact le_refl last_block

/-- `_last_block` never decreases across any run of trustee-loop
iterations. -/
theorem trustee_run_mono (mode : Mode)
    (produce : ChainDB → List SignedTransaction → Except Err TrxBlock)
    (bcast : TrxBlock → Option Err)
    (push_block : ChainDB → TrxBlock → Except Err ChainDB) :
    ∀ (nows : List Int) (last_block : Int) (st : State),
      last_block ≤
        (trustee_run mode produce bcast push_block nows last_block st).1 := by
  intro nows
  induction nows with
  | nil =>
      intro lb st
      simp [trustee_run]
  | cons n rest ih =>
      intro lb st
      simp only [trustee_run]
      exact le_trans
        (trustee_iteration_mono mode produce bcast push_block n lb st)
        (ih _ _)

/-- C5.  In every trustee-loop iteration a block is produced and
broadcast only when the mempool snapshot is non-empty and more than 30
seconds have passed since `_last_block`; when the gate is closed nothing
happens at all; when block production throws, the iteration logs and
continues with `_last_block` untouched; `_last_block` changes only by
being set to `now` after a fully successful publication (including, in
peer mode, the self-apply); and `_last_block` is monotonically
non-decreasing, both over one iteration and over any whole run. -/
theorem trustee_iteration_spec (mode : Mode)
    (produce : ChainDB → List SignedTransaction → Except Err TrxBlock)
    (bcast : TrxBlock → Option Err)
    (push_block : ChainDB → TrxBlock → Except Err ChainDB)
    (now last_block : Int) (st : State) (nows : List Int) :
    ((trustee_iteration mode produce bcast push_block
        now last_block st).produced ≠ none →
      get_pending_transactions st ≠ [] ∧ now - last_block > 30) ∧
    (¬(get_pending_transactions st ≠ [] ∧ now - last_block > 30) →
      trustee_iteration mode produce bcast push_block now last_block st =
        ⟨st, last_block, none⟩) ∧
    (∀ e, produce st.chain (get_pending_transactions st) = .error e →
      trustee_iteration mode produce bcast push_block now last_block st =
        ⟨st, last_block, none⟩) ∧
    ((trustee_iteration mode produce bcast push_block
        now last_block st).last_block ≠ last_block →
      (trustee_iteration mode produce bcast push_block
        now last_block st).last_block = now ∧
      ∃ blk, produce st.chain (get_pending_transactions st) = .ok blk ∧
        bcast blk = none ∧
        (trustee_iteration mode produce bcast push_block
          now last_block st).produced = some blk ∧
        (mode = .peer → (on_new_block push_block st blk).2 = none)) ∧
    last_block ≤
      (trustee_iteration mode produce bcast push_block
        now last_block st).last_block ∧
    last_block ≤
      (trustee_run mode produce bcast push_block nows last_block st).1 := by
  refine ⟨?_, ?_, ?_, ?_,
    trustee_iteration_mono mode produce bcast push_block now last_block st,
    trustee_run_mono mode produce bcast push_block nows last_block st⟩
    <;> by_cases hgate : get_pending_transactions st ≠ [] ∧
          now - last_block > 30
  case neg =>
    have hval : trustee_iteration mode produce bcast push_block
        now last_block st = ⟨st, last_block, none⟩ := by
      simp only [trustee_iteration]
      rw [if_neg hgate]
    rw [hval]
    intro h
    exact absurd rfl h
  case pos =>
    intro _
    exact hgate
  case neg =>
    intro _
    simp only [trustee_iteration]
    rw [if_neg hgate]
  case pos =>
    intro h
    exact absurd hgate h
  case neg =>
    intro e hp
    simp only [trustee_iteration]
    rw [if_neg hgate]
  case pos =>
    intro e hp
    simp only [trustee_iteration]
    rw [if_pos hgate, hp]
  case neg =>
    have hval : trustee_iteration mode produce bcast push_block
        now last_block st = ⟨st, last_block, none⟩ := by
      simp only [trustee_iteration]
      rw [if_neg hgate]
    rw [hval]
    intro h
    exact absurd rfl h
  case pos =>
    cases hp : produce st.chain (get_pending_transactions st) with
    | error e =>
        have hval : trustee_iteration mode produce bcast push_block
            now last_block st = ⟨st, last_block, none⟩ := by
          simp only [trustee_iteration]
          rw [if_pos hgate, hp]
        rw [hval]
        intro h
        exact absurd rfl h
    | ok blk =>
        cases hb : bcast blk with
        | some e =>
            have hval : trustee_iteration mode produce bcast push_block
                now last_block st = ⟨st, last_block, none⟩ := by
              simp only [trustee_iteration]
              rw [if_pos hgate, hp]
              simp only [hb]
            rw [hval]
            intro h
            exact absurd rfl h
        | none =>
            cases mode with
            | clientServer =>
                have hval : trustee_iteration .clientServer produce bcast
                    push_block now last_block st = ⟨st, now, some blk⟩ := by
                  simp only [trustee_iteration]
                  rw [if_pos hgate, hp]
                  simp only [hb]
                rw [hval]
                intro _
                exact ⟨rfl, blk, rfl, hb, rfl, fun hm => Mode.noConfusion hm⟩
            | peer =>
                cases hn : (on_new_block push_block st blk).2 with
                | some e =>
                    have hval : trustee_iteration .peer produce bcast
                        push_block now last_block st =
                          ⟨(on_new_block push_block st blk).1, last_block,
                            some blk⟩ := by
                      simp only [trustee_iteration]
                      rw [if_pos hgate, hp]
                      simp only [hb, hn]
                    rw [hval]
                    intro h
                    exact absurd rfl h
                | none =>
                    have hval : trustee_iteration .peer produce bcast
                        push_block now last_block st =
                          ⟨(on_new_block push_block st blk).1, now,
                            some blk⟩ := by
                      simp only [trustee_iteration]
                      rw [if_pos hgate, hp]
                      simp only [hb, hn]
                    rw [hval]
                    intro _
                    exact ⟨rfl, blk, rfl, hb, rfl, fun _ => hn⟩

/-- C5, witness: over `st0` (non-empty mempool) at `now = 40` with
`last_block = 0`, a fully successful peer-mode iteration advances
`_last_block` to 40 and reports the produced block. -/
theorem trustee_iteration_spec_witness :
    (trustee_iteration Mode.peer produceW bcastW pushOk
      40 0 st0).last_block = 40 ∧
    ∃ blk, produceW st0.chain (get_pending_transactions st0) = .ok blk ∧
      bcastW blk = none ∧
      (trustee_iteration Mode.peer produceW bcastW pushOk
        40 0 st0).produced = some blk ∧
      (Mode.peer = Mode.peer → (on_new_block pushOk st0 blk).2 = none) :=
  (trustee_iteration_spec Mode.peer produceW bcastW pushOk
    40 0 st0 [40]).2.2.2.1 (by decide)

end BtsClient
